import Mathlib

/-!
# Verification of the html5ever parser driver (`src/html5ever/src/driver.rs`)

This development shallowly embeds the driver layer of html5ever: the
buffered input queue, the feed/drain loop of `Parser::process` and
`Parser::finish`, the document/fragment entry points, the `error`
forwarding method, and the lossy UTF-8 byte adapter.

The Tokenizer, Tree Builder, `BufferQueue` and `Utf8LossyDecoder` are
external collaborators of the driver (their code is not part of the
driver source); they are modelled from the specification:

* `TokAPI` is an abstract model of the Tokenizer pipeline sitting below
  the driver: a `feed` operation that consumes from the queue and reports
  either a yield ("Script") or input exhausted ("Done"), an end-of-input
  signal, and a finalize operation.  A measure field together with
  `feed_script_lt` expresses the spec's precondition that a yield makes
  progress, so that the driver's drain loop terminates.
* `TokSpec` is a finer, character-at-a-time spec-model of the Tokenizer
  used for the chunking-invariance properties.
* A wiring model of the construction-time structures (`TokenizerOpts`,
  `TreeBuilder`, `Tokenizer`, `Parser`) captures the entry points.
* An incremental lossy UTF-8 decoder models the byte adapter.
-/

namespace Html5Driver

/-- A text chunk: a contiguous run of decoded text handed to the driver
in one `process` call (a `StrTendril` in the source). -/
abbrev Chunk := List Char

/-- The driver's input queue (`BufferQueue`): an ordered FIFO sequence of
pending chunks. -/
abbrev Queue := List Chunk

/-- `BufferQueue::push_back`: append a chunk at the tail of the queue. -/
def pushBack (q : Queue) (c : Chunk) : Queue := q ++ [c]

/-- Result of the Tokenizer's `feed` operation: either a yield at an
embedded-script boundary (`TokenizerResult::Script(_)`, payload unused by
the driver) or no further progress without more input
(`TokenizerResult::Done`). -/
inductive TokRes : Type
  | Script : TokRes
  | Done : TokRes
deriving DecidableEq, Repr

section AbstractTokenizer

variable {σ Ω C : Type}

/-- Modelled from the spec: the abstract interface of the
Tokenizer-over-Tree-Builder pipeline that the driver composes.  `σ` is
the pipeline's internal state, `Ω` the Output Sink's finalize result
type, `C` the type of Output Sink calls.

* `feed` consumes text from the Input Queue, emits sink calls, and
  reports `Script` (yield) or `Done` (input exhausted);
* `meas` and `feed_script_lt` express that a yield consumed input, so
  that the drain loop makes progress (the spec's precondition that feed
  eventually reports a non-Script result);
* `endStep` is `Tokenizer::end` (one-shot end-of-input signal, may flush
  a pending partial token);
* `finishOut` is the final `sink.finish()` reached through the Tree
  Builder, returning the Output Sink's finalize result. -/
structure TokAPI (σ Ω C : Type) where
  feed : σ → Queue → σ × Queue × TokRes × List C
  meas : σ → Queue → Nat
  feed_script_lt : ∀ s q, (feed s q).2.2.1 = TokRes.Script →
    meas (feed s q).1 (feed s q).2.1 < meas s q
  endStep : σ → σ × List C
  finishOut : σ → Ω × List C

/-- The driver's drain loop, shared by `process` and `finish`:
`while let TokenizerResult::Script(_) = self.tokenizer.feed(&mut self.input_buffer) {}`.
Returns the final tokenizer state, the remaining queue, and the
concatenation of all sink calls emitted by the successive feeds. -/
def drain (T : TokAPI σ Ω C) (s : σ) (q : Queue) : σ × Queue × List C :=
  if h : (T.feed s q).2.2.1 = TokRes.Script then
    let d := drain T (T.feed s q).1 (T.feed s q).2.1
    (d.1, d.2.1, (T.feed s q).2.2.2 ++ d.2.2)
  else ((T.feed s q).1, (T.feed s q).2.1, (T.feed s q).2.2.2)
termination_by T.meas s q
decreasing_by exact T.feed_script_lt s q h

/-- If the first feed does not yield, the drain loop stops there. -/
theorem drain_done (T : TokAPI σ Ω C) (s : σ) (q : Queue)
    (h : (T.feed s q).2.2.1 ≠ TokRes.Script) :
    drain T s q = ((T.feed s q).1, (T.feed s q).2.1, (T.feed s q).2.2.2) := by
  unfold drain
  rw [dif_neg h]

/-- If the first feed yields at a script boundary, the drain loop
immediately feeds again. -/
theorem drain_script (T : TokAPI σ Ω C) (s : σ) (q : Queue)
    (h : (T.feed s q).2.2.1 = TokRes.Script) :
    drain T s q =
      ((drain T (T.feed s q).1 (T.feed s q).2.1).1,
       (drain T (T.feed s q).1 (T.feed s q).2.1).2.1,
       (T.feed s q).2.2.2 ++ (drain T (T.feed s q).1 (T.feed s q).2.1).2.2) := by
  conv_lhs => unfold drain
  rw [dif_pos h]

/-- Fuel-indexed version of the drain loop: runs the loop for at most a
given number of feed invocations, `none` when the fuel runs out first. -/
def drainFuel (T : TokAPI σ Ω C) : Nat → σ → Queue → Option (σ × Queue × List C)
  | 0, _, _ => none
  | n + 1, s, q =>
    if (T.feed s q).2.2.1 = TokRes.Script then
      (drainFuel T n (T.feed s q).1 (T.feed s q).2.1).map
        (fun d => (d.1, d.2.1, (T.feed s q).2.2.2 ++ d.2.2))
    else some ((T.feed s q).1, (T.feed s q).2.1, (T.feed s q).2.2.2)

/-- Enough fuel makes the fuel-indexed loop reach the drain loop's
result: the loop terminates. -/
theorem drainFuel_complete (T : TokAPI σ Ω C) :
    ∀ (n : Nat) (s : σ) (q : Queue), T.meas s q < n →
      drainFuel T n s q = some (drain T s q) := by
  intro n
  induction n with
  | zero => intro s q h; omega
  | succ n ih =>
    intro s q h
    by_cases hs : (T.feed s q).2.2.1 = TokRes.Script
    · have hlt := T.feed_script_lt s q hs
      rw [drainFuel, if_pos hs, ih _ _ (by omega), drain_script T s q hs]
      rfl
    · rw [drainFuel, if_neg hs, drain_done T s q hs]

/-- The dynamic state of a `Parser`: the tokenizer pipeline state and
the input queue (`input_buffer`). -/
structure PState (σ : Type) where
  tok : σ
  buf : Queue

/-- `Parser::process` (the `TendrilSink` method): push the chunk onto
the tail of the input queue, then run the drain loop.  Returns the new
parser state together with the sink calls emitted. -/
def process (T : TokAPI σ Ω C) (p : PState σ) (t : Chunk) : PState σ × List C :=
  let d := drain T p.tok (pushBack p.buf t)
  (⟨d.1, d.2.1⟩, d.2.2)

/-- `Parser::finish`: run the drain loop, assert the input queue is
empty (a failed assertion is modelled as result `none` with no further
activity), signal end-of-input to the Tokenizer, then invoke the sink's
finalize and return its value.  Returns the emitted sink calls and
`some` result, or the calls emitted so far and `none` on the assertion
failure (panic). -/
def finish (T : TokAPI σ Ω C) (p : PState σ) : List C × Option Ω :=
  let d := drain T p.tok p.buf
  if d.2.1 = ([] : Queue) then
    let e := T.endStep d.1
    let f := T.finishOut e.1
    (d.2.2 ++ e.2 ++ f.2, some f.1)
  else (d.2.2, none)

/-- Push a list of chunks in order via `process`, collecting all sink
calls. -/
def processAll (T : TokAPI σ Ω C) : PState σ → List Chunk → PState σ × List C
  | p, [] => (p, [])
  | p, c :: cs =>
    let r := process T p c
    let k := processAll T r.1 cs
    (k.1, r.2 ++ k.2)

/-- Push a list of chunks in order via `process`, then call `finish`:
the full sink-call trace of the parse and the finish result. -/
def run (T : TokAPI σ Ω C) (p : PState σ) (cs : List Chunk) : List C × Option Ω :=
  let r := processAll T p cs
  let f := finish T r.1
  (r.2 ++ f.1, f.2)

end AbstractTokenizer

section CharTokenizer

variable {σ Ω C : Type}

/-- Modelled from the spec: a character-at-a-time spec-model of the
Tokenizer.  The spec treats the Input Queue's chunk structure as
invisible to tokenization (the Tokenizer peeks-and-advances through the
queued text, deciding per character, and a chunk is removed once fully
consumed); `stepChar` processes one character, emitting sink calls and
reporting whether a script boundary (yield) was reached. -/
structure TokSpec (σ Ω C : Type) where
  init : σ
  stepChar : σ → Char → σ × List C × Bool
  endStep : σ → σ × List C
  finishOut : σ → Ω × List C

/-- Run the character stepper over a whole text, collecting states and
sink calls (script boundaries do not interrupt this reference run). -/
def runChars (S : TokSpec σ Ω C) : σ → List Char → σ × List C
  | s, [] => (s, [])
  | s, c :: cs =>
    let r := S.stepChar s c
    let k := runChars S r.1 cs
    (k.1, r.2.1 ++ k.2)

theorem runChars_append (S : TokSpec σ Ω C) (a : List Char) :
    ∀ (s : σ) (b : List Char),
      runChars S s (a ++ b) =
        ((runChars S (runChars S s a).1 b).1,
         (runChars S s a).2 ++ (runChars S (runChars S s a).1 b).2) := by
  induction a with
  | nil => intro s b; simp [runChars]
  | cons c cs ih =>
    intro s b
    simp only [List.cons_append, runChars, ih]
    simp [ih, List.append_assoc]

/-- Modelled from the spec: the Tokenizer's `feed` operation over the
char-stepper.  It advances through the head chunk character by
character, removes a chunk once fully consumed, stops with `Script`
right after a character that reaches a script boundary, and stops with
`Done` when the queue holds no more text. -/
def feedQ (S : TokSpec σ Ω C) (s : σ) (q : Queue) : σ × Queue × TokRes × List C :=
  match q with
  | [] => (s, [], TokRes.Done, [])
  | [] :: rest => feedQ S s rest
  | (c :: cs) :: rest =>
    let r := S.stepChar s c
    if r.2.2 then (r.1, cs :: rest, TokRes.Script, r.2.1)
    else
      let k := feedQ S r.1 (cs :: rest)
      (k.1, k.2.1, k.2.2.1, r.2.1 ++ k.2.2.2)
termination_by q.length + q.flatten.length
decreasing_by
  all_goals simp [List.flatten]

/-- Invariant of `feedQ`: it consumes a prefix of the queued text,
behaves on it exactly like the reference char run, returns `Done` only
with an empty queue, and consumes at least one character before a
`Script` yield. -/
theorem feedQ_inv (S : TokSpec σ Ω C) :
    ∀ (n : Nat) (s : σ) (q : Queue), q.length + q.flatten.length ≤ n →
      ∃ pre : List Char,
        q.flatten = pre ++ (feedQ S s q).2.1.flatten ∧
        runChars S s pre = ((feedQ S s q).1, (feedQ S s q).2.2.2) ∧
        ((feedQ S s q).2.2.1 = TokRes.Done → (feedQ S s q).2.1 = []) ∧
        ((feedQ S s q).2.2.1 = TokRes.Script → pre ≠ []) := by
  intro n
  induction n with
  | zero =>
    intro s q hle
    match q with
    | [] => exact ⟨[], by simp [feedQ, runChars]⟩
    | _ :: _ => simp at hle
  | succ n ih =>
    intro s q hle
    match q with
    | [] => exact ⟨[], by simp [feedQ, runChars]⟩
    | [] :: rest =>
      obtain ⟨pre, h1, h2, h3, h4⟩ := ih s rest (by simp at hle ⊢; omega)
      exact ⟨pre, by simpa [feedQ] using h1, by simpa [feedQ] using h2,
        by simpa [feedQ] using h3, by simpa [feedQ] using h4⟩
    | (c :: cs) :: rest =>
      by_cases hb : (S.stepChar s c).2.2
      · refine ⟨[c], ?_, ?_, ?_, ?_⟩
        · simp [feedQ, hb]
        · simp [feedQ, hb, runChars]
        · intro hd; rw [feedQ] at hd; simp [hb] at hd
        · intro _; simp
      · obtain ⟨pre, h1, h2, h3, h4⟩ :=
          ih (S.stepChar s c).1 (cs :: rest) (by simp at hle ⊢; omega)
        have hfeed : feedQ S s ((c :: cs) :: rest) =
            ((feedQ S (S.stepChar s c).1 (cs :: rest)).1,
             (feedQ S (S.stepChar s c).1 (cs :: rest)).2.1,
             (feedQ S (S.stepChar s c).1 (cs :: rest)).2.2.1,
             (S.stepChar s c).2.1 ++ (feedQ S (S.stepChar s c).1 (cs :: rest)).2.2.2) := by
          rw [feedQ]
          simp [hb]
        refine ⟨c :: pre, ?_, ?_, ?_, ?_⟩
        · rw [hfeed]
          simp only [List.flatten_cons] at h1 ⊢
          simp [h1]
        · rw [hfeed]
          simp only [runChars]
          rw [h2]
        · intro hd
          rw [hfeed] at hd ⊢
          exact h3 hd
        · intro _
          simp

/-- A `Script` yield from `feedQ` strictly shrinks the queued text. -/
theorem feedQ_script_lt (S : TokSpec σ Ω C) (s : σ) (q : Queue)
    (h : (feedQ S s q).2.2.1 = TokRes.Script) :
    (feedQ S s q).2.1.flatten.length < q.flatten.length := by
  obtain ⟨pre, h1, _, _, h4⟩ := feedQ_inv S (q.length + q.flatten.length) s q le_rfl
  have hne := h4 h
  have : pre.length ≠ 0 := by simpa using hne
  rw [h1]
  simp
  omega

/-- The char-stepper spec-model packaged as an abstract Tokenizer
pipeline: `feed` is `feedQ`, progress is measured by remaining queued
text. -/
def TokSpec.api (S : TokSpec σ Ω C) : TokAPI σ Ω C where
  feed := feedQ S
  meas := fun _ q => q.flatten.length
  feed_script_lt := fun s q h => feedQ_script_lt S s q h
  endStep := S.endStep
  finishOut := S.finishOut

theorem api_feed (S : TokSpec σ Ω C) : (TokSpec.api S).feed = feedQ S := rfl

theorem api_endStep (S : TokSpec σ Ω C) : (TokSpec.api S).endStep = S.endStep := rfl

theorem api_finishOut (S : TokSpec σ Ω C) : (TokSpec.api S).finishOut = S.finishOut := rfl

/-- Under the char-stepper model, the drain loop consumes the whole
queued text and behaves exactly like the reference char run over its
concatenation: the queue always ends empty. -/
theorem drain_flatten (S : TokSpec σ Ω C) :
    ∀ (n : Nat) (s : σ) (q : Queue), q.flatten.length ≤ n →
      drain S.api s q = ((runChars S s q.flatten).1, [], (runChars S s q.flatten).2) := by
  intro n
  induction n with
  | zero =>
    intro s q hle
    obtain ⟨pre, h1, h2, h3, h4⟩ := feedQ_inv S (q.length + q.flatten.length) s q le_rfl
    by_cases hs : (feedQ S s q).2.2.1 = TokRes.Script
    · exfalso
      have := feedQ_script_lt S s q hs
      omega
    · have hd : (feedQ S s q).2.2.1 = TokRes.Done := by
        cases hres : (feedQ S s q).2.2.1
        · exact absurd hres hs
        · rfl
      have hq : (feedQ S s q).2.1 = [] := h3 hd
      have hdone := drain_done (TokSpec.api S) s q (by exact hs)
      simp only [api_feed] at hdone
      have hpre : q.flatten = pre := by simpa [hq] using h1
      rw [hdone, hq, hpre, h2]
  | succ n ih =>
    intro s q hle
    obtain ⟨pre, h1, h2, h3, h4⟩ := feedQ_inv S (q.length + q.flatten.length) s q le_rfl
    by_cases hs : (feedQ S s q).2.2.1 = TokRes.Script
    · have hstep := drain_script (TokSpec.api S) s q (by exact hs)
      simp only [api_feed] at hstep
      have hlt : (feedQ S s q).2.1.flatten.length ≤ n := by
        have := feedQ_script_lt S s q hs
        omega
      have hrec := ih (feedQ S s q).1 (feedQ S s q).2.1 hlt
      rw [hstep, hrec, h1, runChars_append, h2]
    · have hd : (feedQ S s q).2.2.1 = TokRes.Done := by
        cases hres : (feedQ S s q).2.2.1
        · exact absurd hres hs
        · rfl
      have hq : (feedQ S s q).2.1 = [] := h3 hd
      have hdone := drain_done (TokSpec.api S) s q (by exact hs)
      simp only [api_feed] at hdone
      have hpre : q.flatten = pre := by simpa [hq] using h1
      rw [hdone, hq, hpre, h2]

/-- Processing chunks one by one from an empty queue equals the
reference char run over their concatenation, and leaves the queue
empty. -/
theorem processAll_from_empty (S : TokSpec σ Ω C) :
    ∀ (cs : List Chunk) (s : σ),
      processAll S.api ⟨s, []⟩ cs =
        (⟨(runChars S s cs.flatten).1, []⟩, (runChars S s cs.flatten).2) := by
  intro cs
  induction cs with
  | nil => intro s; simp [processAll, runChars]
  | cons c cs ih =>
    intro s
    have hp : process S.api ⟨s, []⟩ c =
        (⟨(runChars S s c).1, []⟩, (runChars S s c).2) := by
      simp only [process, pushBack, List.nil_append]
      rw [drain_flatten S ([c] : Queue).flatten.length s [c] le_rfl]
      simp
    simp only [processAll, hp]
    rw [ih (runChars S s c).1]
    simp only [List.flatten_cons]
    rw [runChars_append]

/-- `finish` on an empty queue: the assertion passes and the result is
the end-of-input flush followed by the sink finalize. -/
theorem finish_empty (S : TokSpec σ Ω C) (s : σ) :
    finish S.api ⟨s, []⟩ =
      ((S.endStep s).2 ++ (S.finishOut (S.endStep s).1).2,
       some (S.finishOut (S.endStep s).1).1) := by
  have hd : drain S.api s ([] : Queue) = (s, [], []) := by
    have hz := drain_flatten S 0 s [] (by simp)
    simpa [runChars] using hz
  simp only [finish, hd, api_endStep, api_finishOut]
  simp

theorem flatten_replicate_nil :
    ∀ n : Nat, (List.replicate n ([] : Chunk)).flatten = ([] : List Char) := by
  intro n
  induction n with
  | zero => rfl
  | succ n ih => simp [List.replicate, ih]

end CharTokenizer

section Wiring

/-!
Wiring model: the construction-time shape of the driver.  Type
parameters: `S` the Output Sink, `H` the sink's opaque node handles,
`TokSt` the Tokenizer's lexical states, `O` the remaining caller-supplied
lexical options, `TBO` the tree-construction options, `Qn` qualified
names, `At` attributes, `D` parse-error descriptions.
-/

variable {S H TokSt O TBO Qn At D : Type}

/-- Modelled from the spec: the caller-supplied lexical option set
(`TokenizerOpts`).  `initial_state` is the one field the fragment entry
point overrides; `other` stands for all remaining lexical options, which
the driver must pass through unchanged. -/
structure TokenizerOpts (TokSt O : Type) where
  initial_state : Option TokSt
  other : O

/-- `ParseOpts`: the aggregate of the two independent option sets. -/
structure ParseOpts (TokSt O TBO : Type) where
  tokenizer : TokenizerOpts TokSt O
  tree_builder : TBO

/-- Modelled from the spec: the construction-time shape of the external
Tree Builder: the sink it wraps, the optional fragment context (context
element and optional form element), and its options. -/
structure TreeBuilder (H S TBO : Type) where
  sink : S
  fragmentContext : Option (H × Option H)
  opts : TBO

/-- `TreeBuilder::new`: document mode, no fragment context. -/
def TreeBuilder.new (sink : S) (opts : TBO) : TreeBuilder H S TBO :=
  ⟨sink, none, opts⟩

/-- `TreeBuilder::new_for_fragment`: fragment mode bound to the context
element and the optional form element. -/
def TreeBuilder.new_for_fragment (sink : S) (context_elem : H)
    (form_elem : Option H) (opts : TBO) : TreeBuilder H S TBO :=
  ⟨sink, some (context_elem, form_elem), opts⟩

/-- Modelled from the spec: the Tree Builder's query for the lexical
state appropriate to the context element's tag name.  `stateFor`
abstracts the tag-name-to-state computation; `d` is the answer outside
fragment mode (where the real method is never invoked by the driver). -/
def TreeBuilder.tokenizer_state_for_context_elem (stateFor : H → TokSt)
    (d : TokSt) (tb : TreeBuilder H S TBO) : TokSt :=
  match tb.fragmentContext with
  | some (ctx, _) => stateFor ctx
  | none => d

/-- Modelled from the spec: the construction-time shape of the external
Tokenizer: the Tree Builder it feeds (its `sink` field), the lexical
options it was given, and its starting lexical state. -/
structure Tokenizer (TB TokSt O : Type) where
  sink : TB
  opts : TokenizerOpts TokSt O
  state : TokSt

/-- Modelled from the spec: `Tokenizer::new` records its token sink and
options; the starting lexical state is the `initial_state` override when
given, else the default state `d`. -/
def Tokenizer.new (d : TokSt) (tb : TB) (opts : TokenizerOpts TokSt O) :
    Tokenizer TB TokSt O :=
  ⟨tb, opts, opts.initial_state.getD d⟩

/-- The `Parser` struct: the composed tokenizer-over-tree-builder
pipeline and the owned input queue. -/
structure Parser (S H TokSt O TBO : Type) where
  tokenizer : Tokenizer (TreeBuilder H S TBO) TokSt O
  input_buffer : Queue

/-- `parse_document`: wrap the sink in a Tree Builder, wrap that in a
Tokenizer (default lexical state `d`), start with an empty input
queue. -/
def parse_document (d : TokSt) (sink : S) (opts : ParseOpts TokSt O TBO) :
    Parser S H TokSt O TBO :=
  { tokenizer := Tokenizer.new d (TreeBuilder.new sink opts.tree_builder) opts.tokenizer
    input_buffer := [] }

/-- `parse_fragment_for_element`: build the Tree Builder in fragment
mode, override only the `initial_state` lexical option with the Tree
Builder's state for the context element (the `..opts.tokenizer` struct
update), and assemble the Parser as in `parse_document`. -/
def parse_fragment_for_element (stateFor : H → TokSt) (d : TokSt) (sink : S)
    (opts : ParseOpts TokSt O TBO) (context_element : H)
    (form_element : Option H) : Parser S H TokSt O TBO :=
  let tb := TreeBuilder.new_for_fragment sink context_element form_element opts.tree_builder
  let tok_opts : TokenizerOpts TokSt O :=
    { initial_state := some (tb.tokenizer_state_for_context_elem stateFor d)
      other := opts.tokenizer.other }
  { tokenizer := Tokenizer.new d tb tok_opts
    input_buffer := [] }

/-- Modelled from the spec: the two Output Sink capabilities the driver
itself touches — materializing an element node and reporting a parse
error.  The sink is stateful: each call returns the updated sink. -/
structure SinkOps (S H Qn At D : Type) where
  createElement : S → Qn → List At → S × H
  parseError : S → D → S

/-- Modelled from the spec: the helper `create_element` (a single
`create_element`-style call on the sink materializing a node for a
name/attribute pair). -/
def create_element (ops : SinkOps S H Qn At D) (sink : S) (name : Qn)
    (attrs : List At) : S × H :=
  ops.createElement sink name attrs

/-- `parse_fragment`: materialize the context element on the sink, then
delegate to `parse_fragment_for_element` with no form element. -/
def parse_fragment (stateFor : H → TokSt) (d : TokSt)
    (ops : SinkOps S H Qn At D) (sink : S) (opts : ParseOpts TokSt O TBO)
    (context_name : Qn) (context_attrs : List At) : Parser S H TokSt O TBO :=
  let r := create_element ops sink context_name context_attrs
  parse_fragment_for_element stateFor d r.1 opts r.2 none

/-- `Parser::error` (the `TendrilSink` method): forward the description
to the Output Sink's `parse_error`, reached as `tokenizer.sink.sink`. -/
def Parser.error (ops : SinkOps S H Qn At D) (p : Parser S H TokSt O TBO)
    (desc : D) : Parser S H TokSt O TBO :=
  { p with tokenizer := { p.tokenizer with
      sink := { p.tokenizer.sink with
        sink := ops.parseError p.tokenizer.sink.sink desc } } }

end Wiring

section Utf8Adapter

/-!
Modelled from the spec: the byte-input adapter (`Parser::from_utf8`
wraps the parser in a `Utf8LossyDecoder`).  The decoder owns only a
buffer of the trailing incomplete multi-byte sequence; each byte push
decodes lossily (malformed sequences become U+FFFD, never an error) and
forwards the decoded text to the wrapped parser's `process`.  Bytes and
decoded code points are represented as `Nat`.
-/

/-- The replacement character U+FFFD substituted for malformed input. -/
def repl : Nat := 0xFFFD

/-- Number of bytes in a UTF-8 sequence headed by lead byte `l`
(0 when `l` is not a valid lead byte). -/
def seqLen (l : Nat) : Nat :=
  if 0xC2 ≤ l ∧ l ≤ 0xDF then 2
  else if 0xE0 ≤ l ∧ l ≤ 0xEF then 3
  else if 0xF0 ≤ l ∧ l ≤ 0xF4 then 4
  else 0

/-- Lower bound for the first continuation byte after lead `l` (the
constrained ranges exclude overlong and out-of-range encodings). -/
def contLo (l : Nat) : Nat :=
  if l = 0xE0 then 0xA0 else if l = 0xF0 then 0x90 else 0x80

/-- Upper bound for the first continuation byte after lead `l` (the
constrained ranges exclude surrogates and values above U+10FFFF). -/
def contHi (l : Nat) : Nat :=
  if l = 0xED then 0x9F else if l = 0xF4 then 0x8F else 0xBF

/-- Whether byte `b` is a valid continuation of the pending partial
sequence `p` (whose head is the lead byte). -/
def contOK (p : List Nat) (b : Nat) : Bool :=
  match p with
  | [l] => decide (contLo l ≤ b ∧ b ≤ contHi l)
  | _ => decide (0x80 ≤ b ∧ b ≤ 0xBF)

/-- Decode a complete UTF-8 sequence (already validated) to its code
point. -/
def decodeSeq (p : List Nat) : Nat :=
  match p with
  | [l, c1] => (l - 0xC0) * 0x40 + (c1 - 0x80)
  | [l, c1, c2] => (l - 0xE0) * 0x1000 + (c1 - 0x80) * 0x40 + (c2 - 0x80)
  | [l, c1, c2, c3] =>
    (l - 0xF0) * 0x40000 + (c1 - 0x80) * 0x1000 + (c2 - 0x80) * 0x40 + (c3 - 0x80)
  | _ => repl

/-- One decoder step with no pending bytes. -/
def utf8StepEmpty (b : Nat) : List Nat × List Nat :=
  if b ≤ 0x7F then ([], [b])
  else if seqLen b ≠ 0 then ([b], [])
  else ([], [repl])

/-- One decoder step: consume byte `b` with pending partial sequence
`p`; returns the new pending buffer and the emitted code points.  An
invalid continuation replaces the pending sequence with U+FFFD and
reprocesses `b` from the empty state. -/
def utf8Step (p : List Nat) (b : Nat) : List Nat × List Nat :=
  match p with
  | [] => utf8StepEmpty b
  | l :: _ =>
    if contOK p b then
      if (p ++ [b]).length = seqLen l then ([], [decodeSeq (p ++ [b])])
      else (p ++ [b], [])
    else
      let r := utf8StepEmpty b
      (r.1, repl :: r.2)

/-- Push one byte batch through the decoder: the new pending buffer and
the code points delivered to the wrapped parser for this batch. -/
def decodePush : List Nat → List Nat → List Nat × List Nat
  | p, [] => (p, [])
  | p, b :: bs =>
    let r := utf8Step p b
    let k := decodePush r.1 bs
    (k.1, r.2 ++ k.2)

/-- End of byte input: a pending incomplete sequence is replaced
lossily. -/
def decodeFlush (p : List Nat) : List Nat :=
  if p = [] then [] else [repl]

/-- Decode a whole byte sequence in one push followed by the final
flush. -/
def decodeAll (bs : List Nat) : List Nat :=
  (decodePush [] bs).2 ++ decodeFlush (decodePush [] bs).1

/-- Pushing two batches in sequence decodes exactly like pushing their
concatenation: the decoder state threads through. -/
theorem decodePush_append (a : List Nat) :
    ∀ (p b : List Nat),
      decodePush p (a ++ b) =
        ((decodePush (decodePush p a).1 b).1,
         (decodePush p a).2 ++ (decodePush (decodePush p a).1 b).2) := by
  induction a with
  | nil => intro p b; simp [decodePush]
  | cons x xs ih =>
    intro p b
    simp only [List.cons_append, decodePush, ih]
    simp [ih, List.append_assoc]

end Utf8Adapter

section WitnessInstances

/-- A degenerate tokenizer pipeline whose `feed` consumes the whole
queue at once, for concrete evaluation of the driver. -/
def Tdone : TokAPI Unit Unit Unit where
  feed := fun s _ => (s, [], TokRes.Done, [])
  meas := fun _ _ => 0
  feed_script_lt := fun _ _ h => TokRes.noConfusion h
  endStep := fun s => (s, [])
  finishOut := fun _ => ((), [])

/-- A degenerate tokenizer pipeline whose `feed` consumes nothing and
reports `Done`, leaving the queue as it was — this exhibits the
assertion-failure branch of `finish`. -/
def Tstuck : TokAPI Unit Unit Unit where
  feed := fun s q => (s, q, TokRes.Done, [])
  meas := fun _ _ => 0
  feed_script_lt := fun _ _ h => TokRes.noConfusion h
  endStep := fun s => (s, [])
  finishOut := fun _ => ((), [])

end WitnessInstances

section Claims

variable {σ Ω C : Type}

/-- C1: For every input text and every way of splitting it into chunks,
pushing the chunks in order via `process` and then calling `finish`
produces exactly the same sequence of Output Sink calls, and the same
finish result, as pushing the whole text as a single chunk followed by
`finish`.  `⟨s, []⟩` is the dynamic content of a freshly constructed
parser (empty input queue); the tokenizer is the char-stepper
spec-model. -/
theorem chunking_invariance (S : TokSpec σ Ω C) (s : σ) (cs : List Chunk) :
    run S.api ⟨s, []⟩ cs = run S.api ⟨s, []⟩ [cs.flatten] := by
  simp only [run]
  rw [processAll_from_empty S cs s, processAll_from_empty S [cs.flatten] s]
  simp

/-- C2: `parse_fragment_for_element` constructs the Tokenizer with its
initial lexical state set to the Tree Builder's
`tokenizer_state_for_context_elem()` computed for the given context
element, passes every other caller-supplied lexical option through
unchanged, and assembles the Parser as in `parse_document` (fragment
Tree Builder, empty input queue). -/
theorem fragment_initial_state {S H TokSt O TBO : Type} (stateFor : H → TokSt)
    (d : TokSt) (sink : S) (opts : ParseOpts TokSt O TBO) (ctx : H)
    (form : Option H) :
    (parse_fragment_for_element stateFor d sink opts ctx form).tokenizer.opts.initial_state
      = some ((TreeBuilder.new_for_fragment sink ctx form
          opts.tree_builder).tokenizer_state_for_context_elem stateFor d) ∧
    (parse_fragment_for_element stateFor d sink opts ctx form).tokenizer.opts.initial_state
      = some (stateFor ctx) ∧
    (parse_fragment_for_element stateFor d sink opts ctx form).tokenizer.state
      = stateFor ctx ∧
    (parse_fragment_for_element stateFor d sink opts ctx form).tokenizer.opts.other
      = opts.tokenizer.other ∧
    (parse_fragment_for_element stateFor d sink opts ctx form).tokenizer.sink
      = TreeBuilder.new_for_fragment sink ctx form opts.tree_builder ∧
    (parse_fragment_for_element stateFor d sink opts ctx form).input_buffer = [] :=
  ⟨rfl, rfl, rfl, rfl, rfl, rfl⟩

/-- C3: `process` appends the chunk to the tail of the input queue and
then runs the feed loop, which loops again exactly when `feed` reports
`Script` and stops at the first non-`Script` result; the sink calls of
`process` are exactly those of the successive feeds. -/
theorem process_enqueue_drain (T : TokAPI σ Ω C) (p : PState σ) (t : Chunk) :
    process T p t =
      (⟨(drain T p.tok (pushBack p.buf t)).1, (drain T p.tok (pushBack p.buf t)).2.1⟩,
       (drain T p.tok (pushBack p.buf t)).2.2) ∧
    (∀ (s : σ) (q : Queue),
      drain T s q =
        if (T.feed s q).2.2.1 = TokRes.Script then
          ((drain T (T.feed s q).1 (T.feed s q).2.1).1,
           (drain T (T.feed s q).1 (T.feed s q).2.1).2.1,
           (T.feed s q).2.2.2 ++ (drain T (T.feed s q).1 (T.feed s q).2.1).2.2)
        else ((T.feed s q).1, (T.feed s q).2.1, (T.feed s q).2.2.2)) := by
  refine ⟨rfl, fun s q => ?_⟩
  by_cases hs : (T.feed s q).2.2.1 = TokRes.Script
  · rw [if_pos hs, drain_script T s q hs]
  · rw [if_neg hs, drain_done T s q hs]

/-- C4: when the queue is empty after the drain loop, `finish` performs
in order: the drain loop, the (passing) empty-queue assertion, the
one-shot end-of-input signal to the Tokenizer, then the finalize
reached through the Tree Builder, returning the Output Sink's finalize
result. -/
theorem finish_success (T : TokAPI σ Ω C) (p : PState σ)
    (h : (drain T p.tok p.buf).2.1 = []) :
    finish T p =
      ((drain T p.tok p.buf).2.2 ++ (T.endStep (drain T p.tok p.buf).1).2 ++
        (T.finishOut (T.endStep (drain T p.tok p.buf).1).1).2,
       some (T.finishOut (T.endStep (drain T p.tok p.buf).1).1).1) := by
  simp only [finish]
  rw [if_pos h]

/-- Witness for C4 at a concrete input: a tokenizer that consumes the
whole queue, one pushed chunk. -/
theorem finish_success_witness :
    (drain Tdone () [['a']]).2.1 = [] ∧
    finish Tdone ⟨(), [['a']]⟩ = ([], some ()) := by
  have hd : drain Tdone () [['a']] = ((), [], []) := drain_done _ _ _ (by decide)
  refine ⟨by rw [hd], ?_⟩
  have hf := finish_success Tdone ⟨(), [['a']]⟩ (by rw [hd])
  rw [hf, hd]
  rfl

/-- C5: if the input queue is non-empty after `finish`'s drain loop,
`finish` halts with the assertion failure (result `none`) before
signalling end-of-input or finalizing: the sink-call trace is exactly
the drain loop's (in particular no parse error is reported for it), and
no finalize value is produced. -/
theorem finish_assert_panic (T : TokAPI σ Ω C) (p : PState σ)
    (h : (drain T p.tok p.buf).2.1 ≠ []) :
    finish T p = ((drain T p.tok p.buf).2.2, none) := by
  simp only [finish]
  rw [if_neg h]

/-- Witness for C5 at a concrete input: a tokenizer whose `feed`
consumes nothing, so the queue stays non-empty past the drain loop. -/
theorem finish_assert_panic_witness :
    (drain Tstuck () [['a']]).2.1 ≠ [] ∧
    finish Tstuck ⟨(), [['a']]⟩ = ([], none) := by
  have hd : drain Tstuck () [['a']] = ((), [['a']], []) := drain_done _ _ _ (by decide)
  refine ⟨by rw [hd]; decide, ?_⟩
  have hf := finish_assert_panic Tstuck ⟨(), [['a']]⟩ (by rw [hd]; decide)
  rw [hf, hd]

/-- C6: `parse_fragment` makes exactly one `create_element` call on the
sink for the context name and attributes, then yields the parser of
`parse_fragment_for_element` on the returned handle with no form
element; in particular the fragment context binds no form element. -/
theorem parse_fragment_delegates {S H TokSt O TBO Qn At D : Type}
    (stateFor : H → TokSt) (d : TokSt) (ops : SinkOps S H Qn At D) (sink : S)
    (opts : ParseOpts TokSt O TBO) (name : Qn) (attrs : List At) :
    parse_fragment stateFor d ops sink opts name attrs =
      parse_fragment_for_element stateFor d (ops.createElement sink name attrs).1
        opts (ops.createElement sink name attrs).2 none ∧
    (parse_fragment stateFor d ops sink opts name attrs).tokenizer.sink.fragmentContext
      = some ((ops.createElement sink name attrs).2, none) :=
  ⟨rfl, rfl⟩

/-- C7: pushing a byte sequence split at any byte offset across two
pushes of the lossy UTF-8 adapter delivers exactly the same decoded
text to the wrapped parser as pushing the bytes in one call — no code
point lost or duplicated, even when the offset falls inside a
multi-byte sequence; malformed bytes are replaced by U+FFFD and an
incomplete trailing sequence is buffered (or, at end of input, replaced)
rather than failing. -/
theorem utf8_split_invariance (bs : List Nat) (i : Nat) :
    (decodePush [] (bs.take i)).2 ++
      ((decodePush (decodePush [] (bs.take i)).1 (bs.drop i)).2 ++
        decodeFlush (decodePush (decodePush [] (bs.take i)).1 (bs.drop i)).1)
      = decodeAll bs ∧
    decodeAll [0xFF] = [repl] ∧
    decodeAll [0xC3] = [repl] ∧
    decodeAll [0xE2, 0x82, 0xAC] = [0x20AC] := by
  refine ⟨?_, by decide, by decide, by decide⟩
  have hsplit := decodePush_append (bs.take i) [] (bs.drop i)
  rw [List.take_append_drop] at hsplit
  rw [decodeAll, hsplit]
  simp [List.append_assoc]

/-- C8: `Parser::error` forwards the description as exactly one
`parse_error` call on the Output Sink (reached as
`tokenizer.sink.sink`) and changes nothing else: input queue, tokenizer
options and lexical state, and the Tree Builder's fragment context and
options are untouched, and the call never aborts (it totally returns a
parser). -/
theorem error_forwards {S H TokSt O TBO Qn At D : Type}
    (ops : SinkOps S H Qn At D) (p : Parser S H TokSt O TBO) (desc : D) :
    (Parser.error ops p desc).tokenizer.sink.sink
      = ops.parseError p.tokenizer.sink.sink desc ∧
    (Parser.error ops p desc).input_buffer = p.input_buffer ∧
    (Parser.error ops p desc).tokenizer.opts = p.tokenizer.opts ∧
    (Parser.error ops p desc).tokenizer.state = p.tokenizer.state ∧
    (Parser.error ops p desc).tokenizer.sink.fragmentContext
      = p.tokenizer.sink.fragmentContext ∧
    (Parser.error ops p desc).tokenizer.sink.opts = p.tokenizer.sink.opts :=
  ⟨rfl, rfl, rfl, rfl, rfl, rfl⟩

/-- C9: constructing a parser (empty input queue, as `parse_document`
does), calling `process` on the empty chunk any number of times, then
`finish`, never reaches the empty-queue assertion failure and returns
the sink's finalize result for an empty document (the end-of-input
flush followed by finalize from the initial state). -/
theorem empty_pushes_finish (S : TokSpec σ Ω C) (n : Nat) :
    run S.api ⟨S.init, []⟩ (List.replicate n []) =
      ((S.endStep S.init).2 ++ (S.finishOut (S.endStep S.init).1).2,
       some (S.finishOut (S.endStep S.init).1).1) := by
  simp only [run]
  rw [processAll_from_empty S (List.replicate n []) S.init, flatten_replicate_nil n]
  simp only [runChars]
  rw [finish_empty S S.init]
  rfl

/-- C10: every `process` and `finish` call runs to completion: the
drain loop over the queue the call operates on (the queue with the
chunk appended for `process`, the queue as is for `finish`) reaches its
first non-`Script` feed result within a finite number of feed
invocations — the fuel-indexed loop succeeds and agrees with the total
loop.  The precondition that feed eventually reports a non-Script
result is the `meas`/`feed_script_lt` field of the model. -/
theorem process_finish_terminate (T : TokAPI σ Ω C) (p : PState σ) (t : Chunk) :
    (∃ n, drainFuel T n p.tok (pushBack p.buf t)
        = some (drain T p.tok (pushBack p.buf t))) ∧
    (∃ n, drainFuel T n p.tok p.buf = some (drain T p.tok p.buf)) :=
  ⟨⟨T.meas p.tok (pushBack p.buf t) + 1,
      drainFuel_complete T _ _ _ (Nat.lt_succ_self _)⟩,
    ⟨T.meas p.tok p.buf + 1, drainFuel_complete T _ _ _ (Nat.lt_succ_self _)⟩⟩

end Claims

end Html5Driver
